import Mathlib

/-!
Verification of the mdxtractor markdown section extractor (`src/parser.ts`)
against its natural-language specification.

The TypeScript source is shallowly embedded: the HTMLRewriter callback
dispatch is modelled as an ordered stream of events, the handler closures of
`parseMarkdown` as a state machine folded over that stream, and the
JavaScript string and regex operations as executable Lean functions.
Strings are Lean `String`s; JavaScript array-index assignment, object key
insertion and regex backtracking are modelled explicitly where the source
uses them.
-/

namespace Mdx

/-- The JavaScript whitespace characters (the regex class \s, also used
by `String.prototype.trim`): ASCII whitespace plus no-break space, BOM and
the Unicode space separators. -/
def jsWsChars : List Char :=
  [' ', '\t', '\n', '\r', '\x0b', '\x0c', '\u00A0', '\u1680', '\u2000',
   '\u2001', '\u2002', '\u2003', '\u2004', '\u2005', '\u2006', '\u2007',
   '\u2008', '\u2009', '\u200A', '\u2028', '\u2029', '\u202F', '\u205F',
   '\u3000', '\uFEFF']

/-- Membership in the JavaScript whitespace class. -/
def jsIsWs (c : Char) : Bool := jsWsChars.contains c

/-- The regex class `\w`: ASCII letters, digits and underscore. -/
def jsIsWordChar (c : Char) : Bool :=
  c.isAlpha || c.isDigit || c = '_'

/-- The regex `.` without the dotall flag: any character except the four
JavaScript line terminators. -/
def jsIsDotChar (c : Char) : Bool :=
  !(c = '\n' || c = '\r' || c = '\u2028' || c = '\u2029')

/-- `String.prototype.trim`: strip leading and trailing whitespace. -/
def jsTrim (s : String) : String :=
  String.mk (((s.data.dropWhile jsIsWs).reverse.dropWhile jsIsWs).reverse)

/-- `String.prototype.toLowerCase`, modelled per character with the ASCII
case mapping (`Char.toLower`).  Non-ASCII letters are left unchanged; every
caller below only distinguishes characters inside `[a-z0-9]` from characters
outside it, and non-ASCII characters stay outside under either mapping. -/
def jsToLower (s : String) : String :=
  String.mk (s.data.map Char.toLower)

/-- `String.prototype.includes` on character lists: scan every suffix of the
haystack for the needle at its front. -/
def listContains (needle : List Char) : List Char → Bool
  | [] => needle.isEmpty
  | c :: rest => needle.isPrefixOf (c :: rest) || listContains needle rest

/-- `String.prototype.includes`. -/
def strIncludes (hay needle : String) : Bool :=
  listContains needle.data hay.data

/-- The character class `[a-z0-9]` of `slugify`. -/
def isLowerAlnum (c : Char) : Bool :=
  ('a' ≤ c && c ≤ 'z') || ('0' ≤ c && c ≤ '9')

/-- Worker for the run collapse: the flag records whether the previous
character was part of a run of characters outside `[a-z0-9]` (in which case
the hyphen for that run has already been emitted). -/
def collapseAux : Bool → List Char → List Char
  | _, [] => []
  | inRun, c :: rest =>
    if isLowerAlnum c then c :: collapseAux false rest
    else if inRun then collapseAux true rest
    else '-' :: collapseAux true rest

/-- The global replace `/[^a-z0-9]+/g → "-"` inside `slugify`: every maximal
run of characters outside `[a-z0-9]` collapses to a single hyphen. -/
def collapseRuns (cs : List Char) : List Char :=
  collapseAux false cs

/-- The leading alternative of `/^-|-$/g → ""`: remove one hyphen at the
front when present. -/
def dropLeadingHyphen : List Char → List Char
  | '-' :: rest => rest
  | other => other

/-- The trailing alternative of `/^-|-$/g → ""`: remove one hyphen at the
end when present. -/
def dropTrailingHyphen (a : List Char) : List Char :=
  match a.getLast? with
  | some '-' => a.dropLast
  | _ => a

/-- The global replace `/^-|-$/g → ""` inside `slugify`: remove one leading
and one trailing hyphen when present (after run collapsing at most one of
each can exist, and on the one-character string "-" the two alternatives
overlap, so a single removal happens — which this sequential model also
yields, since dropping the leading hyphen leaves nothing to drop). -/
def stripEdgeHyphens (cs : List Char) : List Char :=
  dropTrailingHyphen (dropLeadingHyphen cs)

/-- `slugify` from `src/parser.ts`: lowercase, collapse non-alphanumeric
runs to hyphens, strip edge hyphens. -/
def slugify (text : String) : String :=
  String.mk (stripEdgeHyphens (collapseRuns (jsToLower text).data))

/-- Scan of the unanchored regex `/language-(\w+)/` over the class
attribute: at each start position, try the literal "language-" followed by
at least one word character; the capture is the maximal word-character run.
On failure the scan advances one position, as the regex engine does. -/
def findLanguageMatch : List Char → Option String
  | [] => none
  | c :: rest =>
    if ("language-".data).isPrefixOf (c :: rest) then
      let w := ((c :: rest).drop 9).takeWhile jsIsWordChar
      if w.isEmpty then findLanguageMatch rest else some (String.mk w)
    else findLanguageMatch rest

/-- The tail `\s*\n` of the filename regex, applied after the extension: the
greedy `\s*` backtracks until a literal newline matches, which succeeds
exactly when a newline occurs inside the leading whitespace run. -/
def wsNl (cs : List Char) : Bool :=
  (cs.takeWhile jsIsWs).contains '\n'

/-- Backtracking search for the greedy group `(.+\.\w+)` of the filename
regex followed by `\s*\n`, anchored at `run ++ rest` where `run` is the
maximal run of characters matched by `.`: the `.+` part takes `n` characters
of `run` (longest first), the next character must be a literal dot, the
`\w+` part is the maximal word run (a shorter word run would leave a word
character where only whitespace may follow, so only the maximal one can
succeed), and the remainder must pass `wsNl`.  Returns the captured group. -/
def tryNameLen (run rest : List Char) : Nat → Option String
  | 0 => none
  | Nat.succ k =>
    match run.drop (k + 1) ++ rest with
    | '.' :: after =>
      let w := after.takeWhile jsIsWordChar
      if !w.isEmpty && wsNl (after.drop w.length) then
        some (String.mk (run.take (k + 1) ++ '.' :: w))
      else tryNameLen run rest k
    | _ => tryNameLen run rest k

/-- Match of `(.+\.\w+)\s*\n` anchored at `cs`. -/
def matchCapture (cs : List Char) : Option String :=
  let run := cs.takeWhile jsIsDotChar
  tryNameLen run (cs.drop run.length) run.length

/-- The greedy leading `\s*` of the filename regex: try the longest
whitespace run first and backtrack one character at a time. -/
def tryWsLen (cs : List Char) : Nat → Option String
  | 0 => matchCapture cs
  | Nat.succ k =>
    match matchCapture (cs.drop (k + 1)) with
    | some cap => some cap
    | none => tryWsLen cs k

/-- One alternative `^M\s*(.+\.\w+)\s*\n` of the filename regex, `M` being
the literal comment marker. -/
def matchAfterMarker (marker : String) (cs : List Char) : Option String :=
  if marker.data.isPrefixOf cs then
    let rest := cs.drop marker.length
    tryWsLen rest (rest.takeWhile jsIsWs).length
  else none

/-- The filename detection regex of the pre handler,
`/^\/\/\s*(.+\.\w+)\s*\n|^#\s*(.+\.\w+)\s*\n/`, with the source's
`match?.[1] ?? match?.[2]` collapsing the two capture groups into one
optional string.  The two anchored alternatives are tried in order; their
markers are mutually exclusive at the first character anyway. -/
def detectFilename (code : String) : Option String :=
  match matchAfterMarker "//" code.data with
  | some cap => some cap
  | none => matchAfterMarker "#" code.data

/-- The discriminant of the `Section` union (`SectionType` in the source). -/
inductive SectionType where
  | heading
  | code
  | table
  | list
  | content
  deriving DecidableEq, Repr

/-- The discriminated union `Section` of `src/parser.ts`.  Table rows
(`Record<string, string>` in the source) are modelled as insertion-ordered
association lists with unique keys, built by `setKey` below, matching
JavaScript object key semantics. -/
inductive Section where
  | heading (idx level : Nat) (text slug raw : String)
  | code (idx : Nat) (lang code : String) (filename : Option String) (raw : String)
  | table (idx : Nat) (headers : List String)
      (rows : List (List (String × String))) (raw : String)
  | list (idx : Nat) (ordered : Bool) (items : List String) (raw : String)
  | content (idx : Nat) (text raw : String)
  deriving DecidableEq, Repr

def Section.idx : Section → Nat
  | .heading i _ _ _ _ => i
  | .code i _ _ _ _ => i
  | .table i _ _ _ => i
  | .list i _ _ _ => i
  | .content i _ _ => i

def Section.raw : Section → String
  | .heading _ _ _ _ r => r
  | .code _ _ _ _ r => r
  | .table _ _ _ r => r
  | .list _ _ _ r => r
  | .content _ _ r => r

def Section.type : Section → SectionType
  | .heading .. => .heading
  | .code .. => .code
  | .table .. => .table
  | .list .. => .list
  | .content .. => .content

def Section.isHeading : Section → Bool
  | .heading .. => true
  | _ => false

def Section.isCode : Section → Bool
  | .code .. => true
  | _ => false

def Section.isTable : Section → Bool
  | .table .. => true
  | _ => false

/-- The `lang` field of a code section (`byLang` reads it only on the
already-filtered `codeBlocks` list, so the default for other variants is
never observed). -/
def Section.langOf : Section → String
  | .code _ lang _ _ _ => lang
  | _ => ""

/-- The `level` field of a heading section (the title lookup reads it only
on the already-filtered `headings` list). -/
def Section.levelOf : Section → Nat
  | .heading _ level _ _ _ => level
  | _ => 0

/-- The `text` field of a heading or content section. -/
def Section.textOf : Section → String
  | .heading _ _ text _ _ => text
  | .content _ text _ => text
  | _ => ""

/-- JavaScript object key assignment `obj[k] = v` on an insertion-ordered
association list: an existing key keeps its position and receives the new
value, a new key is appended at the end. -/
def setKey : List (String × String) → String → String → List (String × String)
  | [], k, v => [(k, v)]
  | (k0, v0) :: rest, k, v =>
    if k0 = k then (k0, v) :: rest else (k0, v0) :: setKey rest k v

/-- The row mapping built at table close:
`headers.forEach((h, i) => obj[h] = row[i]?.trim() ?? "")`. -/
def rowObj (headers : List String) (row : List String) : List (String × String) :=
  headers.enum.foldl
    (fun obj hi => setKey obj hi.2 (jsTrim ((row.get? hi.1).getD ""))) []

/-- `formatTableMd` from `src/parser.ts`: pipe-wrapped header line, a `---`
separator per header, one line per row, the three blocks newline-joined. -/
def formatTableMd (headers : List String) (rows : List (List String)) : String :=
  let header := "| " ++ String.intercalate " | " headers ++ " |"
  let separator := "| " ++ String.intercalate " | " (headers.map (fun _ => "---")) ++ " |"
  let body := String.intercalate "\n"
    (rows.map (fun row => "| " ++ String.intercalate " | " row ++ " |"))
  String.intercalate "\n" [header, separator, body]

/-- The raw text of a list section: items rendered "N. item" (1-based) when
ordered, "- item" otherwise, newline-joined. -/
def listRaw (ordered : Bool) (items : List String) : String :=
  String.intercalate "\n"
    (items.enum.map (fun p =>
      if ordered then toString (p.1 + 1) ++ ". " ++ p.2 else "- " ++ p.2))

/-- One HTMLRewriter callback invocation, in document order.  The rewriter
(an external collaborator per the spec) dispatches open-tag (`element`),
text-chunk (`text`) and end-tag (`onEndTag`) callbacks per selector; each
constructor carries exactly the data the corresponding handler in
`parseMarkdown` reads: the heading level digit of the tag name, the class
attribute of a code element, the text chunk and its last-in-text-node flag
for table cells, and whether a list element is `ol`. -/
inductive Event where
  | hOpen (level : Nat)
  | hText (s : String)
  | hClose
  | codeOpen (className : Option String)
  | codeText (s : String)
  | preClose
  | tableOpen
  | tableClose
  | theadOpen
  | tbodyOpen
  | trOpen
  | trClose
  | cellText (s : String) (lastInTextNode : Bool)
  | listOpen (ordered : Bool)
  | listClose
  | liOpen
  | liText (s : String)
  | liClose
  | pOpen
  | pText (s : String)
  | pClose
  deriving DecidableEq, Repr

/-- The `currentTable` accumulator: headers plus raw rows of cell lists. -/
structure CurrentTable where
  headers : List String
  rows : List (List String)
  deriving DecidableEq, Repr

/-- The shared mutable state of the `parseMarkdown` handlers.  `pLocal`
models the `let text = ""` variable local to the p element callback (one p
element is open at a time in the tag set the source registers, so a single
slot reset at open represents the closure variable). -/
structure MState where
  sections : List Section
  idx : Nat
  currentHeading : Option (Nat × String)
  currentCode : Option (String × String)
  currentTable : Option CurrentTable
  currentList : Option (Bool × List String)
  currentRow : List String
  currentListItem : String
  inThead : Bool
  cellIndex : Nat
  pLocal : String
  deriving DecidableEq, Repr

def initState : MState :=
  { sections := []
    idx := 0
    currentHeading := none
    currentCode := none
    currentTable := none
    currentList := none
    currentRow := []
    currentListItem := ""
    inThead := false
    cellIndex := 0
    pLocal := "" }

/-- JavaScript array index assignment `arr[i] = v`: in-range indices are
overwritten, an out-of-range index extends the array.  The cell handler
only ever writes at `cellIndex ≤ arr.length`, so the padding list is empty
in every reachable state; holes JavaScript would create for larger indices
are padded with empty strings, which every read the source performs on
these arrays cannot distinguish from holes. -/
def jsArraySet (arr : List String) (i : Nat) (v : String) : List String :=
  if i < arr.length then arr.set i v
  else arr ++ List.replicate (i - arr.length) "" ++ [v]

/-- One HTMLRewriter callback of `parseMarkdown` (`src/parser.ts`), acting
on the shared handler state.  Every branch mirrors the corresponding
handler body; emission appends to `sections` with the shared counter and
increments it. -/
def step (s : MState) : Event → MState
  | .hOpen level => { s with currentHeading := some (level, "") }
  | .hText t =>
    match s.currentHeading with
    | some (level, acc) => { s with currentHeading := some (level, acc ++ t) }
    | none => s
  | .hClose =>
    match s.currentHeading with
    | some (level, acc) =>
      let text := jsTrim acc
      { s with
        sections := s.sections ++
          [Section.heading s.idx level text (slugify text)
            (String.mk (List.replicate level '#') ++ " " ++ text)]
        idx := s.idx + 1
        currentHeading := none }
    | none => s
  | .codeOpen className =>
    let lang := (findLanguageMatch (className.getD "").data).getD "text"
    { s with currentCode := some (lang, "") }
  | .codeText t =>
    match s.currentCode with
    | some (lang, acc) => { s with currentCode := some (lang, acc ++ t) }
    | none => s
  | .preClose =>
    match s.currentCode with
    | some (lang, acc) =>
      let code := jsTrim acc
      { s with
        sections := s.sections ++
          [Section.code s.idx lang code (detectFilename code)
            ("```" ++ lang ++ "\n" ++ code ++ "\n```")]
        idx := s.idx + 1
        currentCode := none }
    | none => s
  | .tableOpen => { s with currentTable := some ⟨[], []⟩, inThead := false }
  | .tableClose =>
    match s.currentTable with
    | some t =>
      { s with
        sections := s.sections ++
          [Section.table s.idx t.headers (t.rows.map (rowObj t.headers))
            (formatTableMd t.headers t.rows)]
        idx := s.idx + 1
        currentTable := none }
    | none => s
  | .theadOpen => { s with inThead := true }
  | .tbodyOpen => { s with inThead := false }
  | .trOpen => { s with currentRow := [], cellIndex := 0 }
  | .trClose =>
    match s.currentTable with
    | some t =>
      if s.inThead || t.headers.length = 0 then
        { s with currentTable := some ⟨s.currentRow, t.rows⟩ }
      else
        { s with currentTable := some ⟨t.headers, t.rows ++ [s.currentRow]⟩ }
    | none => s
  | .cellText t last =>
    let cur := (s.currentRow.get? s.cellIndex).getD ""
    { s with
      currentRow := jsArraySet s.currentRow s.cellIndex (cur ++ t)
      cellIndex := if last then s.cellIndex + 1 else s.cellIndex }
  | .listOpen ordered => { s with currentList := some (ordered, []) }
  | .listClose =>
    match s.currentList with
    | some (ordered, items) =>
      if items.length > 0 then
        { s with
          sections := s.sections ++
            [Section.list s.idx ordered items (listRaw ordered items)]
          idx := s.idx + 1
          currentList := none }
      else s
    | none => s
  | .liOpen => { s with currentListItem := "" }
  | .liText t => { s with currentListItem := s.currentListItem ++ t }
  | .liClose =>
    match s.currentList with
    | some (ordered, items) =>
      { s with currentList := some (ordered, items ++ [jsTrim s.currentListItem]) }
    | none => s
  | .pOpen => { s with pLocal := "" }
  | .pText _ => s
  | .pClose =>
    if jsTrim s.pLocal = "" then s
    else
      { s with
        sections := s.sections ++
          [Section.content s.idx (jsTrim s.pLocal) (jsTrim s.pLocal)]
        idx := s.idx + 1 }

/-- The full rewriter pass: fold the handlers over the event stream. -/
def parseEvents (events : List Event) : MState :=
  events.foldl step initState

/-- The `ParsedDoc` record returned by `parseMarkdown`. -/
structure ParsedDoc where
  source : String
  title : String
  sections : List Section
  headings : List Section
  codeBlocks : List Section
  tables : List Section
  total : Nat
  deriving DecidableEq, Repr

/-- `headings.find(h => h.level === 1)?.text ?? source`. -/
def titleOf (headings : List Section) (source : String) : String :=
  match headings.find? (fun h => h.levelOf = 1) with
  | some h => h.textOf
  | none => source

/-- `parseMarkdown` from `src/parser.ts`.  The external collaborators
(`Bun.markdown.html` and the HTMLRewriter tokenizer) are out of scope per
the spec; their combined output is the event stream this function consumes.
The returned object's closures `byType`, `byLang` and `search` are modelled
as the standalone functions below, taking the document as first argument. -/
def parseMarkdown (events : List Event) (source : String) : ParsedDoc :=
  let sections := (parseEvents events).sections
  let headings := sections.filter Section.isHeading
  { source := source
    title := titleOf headings source
    sections := sections
    headings := headings
    codeBlocks := sections.filter Section.isCode
    tables := sections.filter Section.isTable
    total := sections.length }

/-- The `byType` closure of the returned document. -/
def ParsedDoc.byType (d : ParsedDoc) (t : SectionType) : List Section :=
  d.sections.filter (fun s => s.type == t)

/-- The `byLang` closure:
`codeBlocks.filter(c => c.lang === lang || c.lang.startsWith(lang))`.
JavaScript `startsWith` is the string-prefix test, modelled on the
character lists. -/
def ParsedDoc.byLang (d : ParsedDoc) (lang : String) : List Section :=
  d.codeBlocks.filter (fun c => c.langOf == lang || lang.data.isPrefixOf c.langOf.data)

/-- The `search` closure: lowercase the query once, keep the sections whose
lowercased raw text includes it. -/
def ParsedDoc.search (d : ParsedDoc) (query : String) : List Section :=
  d.sections.filter (fun s => strIncludes (jsToLower s.raw) (jsToLower query))

/-- The response of the HTTP fetch collaborator. -/
structure FetchResponse where
  ok : Bool
  status : Nat
  body : String

/-- `fetchDocs` from `src/parser.ts`: the fetch collaborator either fails
outright (network error, modelled as `Except.error`) or yields a response;
a non-ok response raises the descriptive error built by the source,
otherwise the body is parsed with the URL as source.  `pipeline` stands for
the out-of-scope renderer plus tokenizer turning raw text into the event
stream. -/
def fetchDocs (fetch : String → Except String FetchResponse)
    (pipeline : String → List Event) (url : String) : Except String ParsedDoc :=
  match fetch url with
  | .error e => .error e
  | .ok res =>
    if !res.ok then
      .error ("Failed to fetch " ++ url ++ ": " ++ toString res.status)
    else .ok (parseMarkdown (pipeline res.body) url)

/-- `parseFile` from `src/parser.ts`: the file collaborator returns the
content, or `none` when `Bun.file(path).exists()` is false, in which case
the descriptive error is raised and no document is produced. -/
def parseFile (readFile : String → Option String)
    (pipeline : String → List Event) (path : String) : Except String ParsedDoc :=
  match readFile path with
  | none => .error ("File not found: " ++ path)
  | some content => .ok (parseMarkdown (pipeline content) path)

/-! ### Definitions written from the specification text

The following definitions are not translations of the source; they state,
in executable form, what the specification and the claims say, so that the
source-derived definitions above can be compared against them. -/

/-- Modelled from the spec text of the tr close rule, for comparison with
the source: "if this is the first row seen or within-head is true, the
current-row buffer becomes/overwrites headers; otherwise it is appended to
rows".  The extra boolean tracks "a row has been seen for the current
table": reset when a table opens, set at every tr close while a table is
open.  Every other event is handled exactly as the source does. -/
def stepFirstRowRule (s : MState) (seenRow : Bool) : Event → MState × Bool
  | .tableOpen => (step s .tableOpen, false)
  | .trClose =>
    match s.currentTable with
    | some t =>
      if s.inThead || !seenRow then
        ({ s with currentTable := some ⟨s.currentRow, t.rows⟩ }, true)
      else
        ({ s with currentTable := some ⟨t.headers, t.rows ++ [s.currentRow]⟩ }, true)
    | none => (s, seenRow)
  | e => (step s e, seenRow)

/-- The fold of the spec's first-row rule over an event stream. -/
def parseEventsFirstRowRule (events : List Event) : MState × Bool :=
  events.foldl (fun p e => stepFirstRowRule p.1 p.2 e) (initState, false)

/-- Modelled from the claim text of the filename rule, for comparison with
the source: take the first line of the code body and test it against the
leading-comment-with-extension shape "// name.ext" or "# name.ext" —
comment marker, optional whitespace, a name ending in a dot plus a word
extension, optionally followed by trailing whitespace; the filename is the
name with the marker and the surrounding whitespace stripped. -/
def claimFirstLineFilename (code : String) : Option String :=
  let firstLine := code.data.takeWhile (fun c => c ≠ '\n')
  let tryMarker := fun (marker : List Char) =>
    if marker.isPrefixOf firstLine then
      let core := (((firstLine.drop marker.length).dropWhile jsIsWs).reverse).dropWhile jsIsWs
      let ext := core.takeWhile jsIsWordChar
      match core.drop ext.length with
      | '.' :: stemRev =>
        if ext.isEmpty || stemRev.isEmpty then none
        else some (String.mk core.reverse)
      | _ => none
    else none
  match tryMarker "//".data with
  | some f => some f
  | none => tryMarker "#".data

/-- A valid match of one alternative of the source's filename regex against
the code body: after the comment marker comes optional whitespace (which
the regex allows to span line breaks), a nonempty run of characters the
regex dot accepts, a literal dot, a nonempty word-character extension, then
optional whitespace and a line feed; the capture is name-dot-extension. -/
def FilenameShape (marker : List Char) (code : String) (cap : String) : Prop :=
  ∃ ws1 name ext ws2 rest : List Char,
    code.data = marker ++ ws1 ++ name ++ '.' :: ext ++ ws2 ++ '\n' :: rest ∧
    (∀ c ∈ ws1, jsIsWs c = true) ∧
    name ≠ [] ∧ (∀ c ∈ name, jsIsDotChar c = true) ∧
    ext ≠ [] ∧ (∀ c ∈ ext, jsIsWordChar c = true) ∧
    (∀ c ∈ ws2, jsIsWs c = true) ∧
    cap.data = name ++ '.' :: ext

/-- The claim's reading of `search`: the query occurs in the raw text as a
substring up to per-character lowercasing. -/
def LowerSubstring (query raw : String) : Prop :=
  ∃ pre mid post : List Char,
    raw.data = pre ++ mid ++ post ∧
    mid.map Char.toLower = query.data.map Char.toLower

/-- Position `j` is the last occurrence of header `h` in `hs`. -/
def IsLastOcc (hs : List String) (j : Nat) (h : String) : Prop :=
  hs.get? j = some h ∧ ∀ jj, j < jj → hs.get? jj ≠ some h

/-- The branch of `tryNameLen` succeeds for a name of length `j`: a literal
dot follows, then a nonempty maximal word run, then whitespace holding a
newline. -/
def NameLenOk (run rest : List Char) (j : Nat) : Prop :=
  ∃ after, run.drop j ++ rest = '.' :: after ∧
    after.takeWhile jsIsWordChar ≠ [] ∧
    wsNl (after.drop (after.takeWhile jsIsWordChar).length) = true

/-! ### Helper lemmas -/

theorem jsTrim_empty : jsTrim "" = "" := rfl

/-- An invariant established at the initial state and preserved by every
handler holds after any event stream. -/
theorem parseEvents_inv (P : MState → Prop) (h0 : P initState)
    (hstep : ∀ s e, P s → P (step s e)) (evs : List Event) :
    P (parseEvents evs) := by
  have key : ∀ (l : List Event) (s : MState), P s → P (l.foldl step s) := by
    intro l
    induction l with
    | nil => intro s h; exact h
    | cons e t ih => intro s h; exact ih (step s e) (hstep s e h)
  exact key evs initState h0

/-- Every handler either leaves the section list and the counter untouched,
or appends exactly one section carrying the current counter value and
increments the counter. -/
theorem step_sections_shape (s : MState) (e : Event) :
    ((step s e).sections = s.sections ∧ (step s e).idx = s.idx) ∨
    (∃ sec, (step s e).sections = s.sections ++ [sec] ∧ sec.idx = s.idx ∧
      (step s e).idx = s.idx + 1) := by
  cases e <;>
    first
      | exact Or.inl ⟨rfl, rfl⟩
      | (simp only [step] <;> (try split) <;> (try split) <;>
          first
            | exact Or.inl ⟨rfl, rfl⟩
            | exact Or.inr ⟨_, rfl, rfl, rfl⟩)

/-- The closure-local p accumulator stays empty across every event: the
open handler resets it and the text callback of the source writes nothing. -/
theorem step_pLocal (s : MState) (e : Event) (h : s.pLocal = "") :
    (step s e).pLocal = "" := by
  cases e <;>
    first
      | exact h
      | rfl
      | (simp only [step] <;> (try split) <;> (try split) <;>
          first
            | exact h
            | rfl)

/-- While the p accumulator is empty, no step emits a content section. -/
theorem step_new_sections_not_content (s : MState) (e : Event)
    (h1 : s.pLocal = "") :
    ∀ x ∈ (step s e).sections, x ∈ s.sections ∨ x.type ≠ SectionType.content := by
  have hp : jsTrim s.pLocal = "" := by rw [h1]; rfl
  cases e <;>
    first
      | (intro x hx; exact Or.inl hx)
      | (simp only [step] <;> (try split) <;> (try split) <;>
          intro x hx <;>
          first
            | exact Or.inl hx
            | exact absurd hp (by assumption)
            | (rcases List.mem_append.mp hx with hx2 | hx2
               · exact Or.inl hx2
               · simp only [List.mem_singleton] at hx2
                 subst hx2
                 exact Or.inr (by simp [Section.type])))

/-- The index bookkeeping invariant: the emitted sections carry the indices
`0, 1, ...` in order and the counter equals the number of sections. -/
theorem step_preserves_idx (s : MState) (e : Event)
    (h : s.sections.map Section.idx = List.range s.idx) :
    (step s e).sections.map Section.idx = List.range (step s e).idx := by
  rcases step_sections_shape s e with ⟨hs, hi⟩ | ⟨sec, hs, hsecidx, hi⟩
  · rw [hs, hi, h]
  · rw [hs, hi, List.map_append, h, List.range_succ]
    simp [hsecidx]

/-! ### Claim theorems -/

/-- Claim C1.  The claim states that text-chunk events between a p
element's open and close tags are appended into a shared accumulator and
that a non-empty trimmed accumulation is emitted as a paragraph section at
close time.  The source does not do this: the accumulator is a variable
local to the open-tag callback, the text callback's body is only a
comment, so the accumulator is empty at every close tag and no content
section is ever emitted on any event stream — including the concrete
stream of a p element carrying the text chunk "This is a paragraph.",
where the claim requires a paragraph section with exactly that text. -/
theorem claim1_paragraph_sections_never_emitted :
    (∀ evs : List Event,
      (parseEvents evs).sections.filter
        (fun x => x.type == SectionType.content) = []) ∧
    (parseEvents [.pOpen, .pText "This is a paragraph.", .pClose]).sections = [] := by
  constructor
  · intro evs
    have h := parseEvents_inv
      (fun s => s.pLocal = "" ∧ ∀ x ∈ s.sections, x.type ≠ SectionType.content)
      ⟨rfl, by intro x hx; simp [initState] at hx⟩
      (fun s e hp => ⟨step_pLocal s e hp.1, by
        intro x hx
        rcases step_new_sections_not_content s e hp.1 x hx with hx2 | hx2
        · exact hp.2 x hx2
        · exact hx2⟩) evs
    refine List.filter_eq_nil.mpr ?_
    intro x hx hb
    exact h.2 x hx (beq_iff_eq.mp hb)
  · rfl

/-- Claim C2.  For every input event stream, the assembled document's
`total` equals the length of `sections`, and the `idx` fields are exactly
`0, 1, ..., total - 1` in list order — each finalized section takes the
next value of the single shared counter starting at 0 — hence strictly
increasing in list position. -/
theorem claim2_total_and_monotonic_idx (evs : List Event) (source : String) :
    (parseMarkdown evs source).total = (parseMarkdown evs source).sections.length ∧
    (parseMarkdown evs source).sections.map Section.idx =
      List.range ((parseMarkdown evs source).sections.length) ∧
    List.Pairwise (fun a b => a < b)
      ((parseMarkdown evs source).sections.map Section.idx) := by
  have h := parseEvents_inv (fun s => s.sections.map Section.idx = List.range s.idx)
    (by simp [initState]) (fun s e hp => step_preserves_idx s e hp) evs
  have hlen : (parseEvents evs).idx = (parseEvents evs).sections.length := by
    have h2 := congrArg List.length h
    simpa using h2.symm
  have hsec : (parseMarkdown evs source).sections = (parseEvents evs).sections := rfl
  refine ⟨rfl, ?_, ?_⟩
  · rw [hsec, h, hlen]
  · rw [hsec, h]
    exact List.pairwise_lt_range _

/-- Claim C3 counterexample.  Stream: a table whose first tr closes with an
empty cell buffer, then a second tr (outside any thead) carrying one cell
"a".  The claim says the second row must be appended to `rows` (it is not
the first row seen and within-head is false), as the rule modelled from the
spec text indeed does; the source instead tests `headers.length === 0` and
overwrites the headers with the second row, emitting a table with
`rows = []`. -/
theorem claim3_counterexample :
    (parseEvents
        [.tableOpen, .trOpen, .trClose, .trOpen, .cellText "a" true, .trClose,
          .tableClose]).sections =
      [Section.table 0 ["a"] [] "| a |\n| --- |\n"] ∧
    (parseEventsFirstRowRule
        [.tableOpen, .trOpen, .trClose, .trOpen, .cellText "a" true, .trClose,
          .tableClose]).1.sections =
      [Section.table 0 [] [[]] "|  |\n|  |\n| a |"] := by
  exact ⟨rfl, rfl⟩

/-- Claim C3 (amended).  While a table is open, at the close-tag of every
tr: if the within-head flag is true or the table's headers list is still
empty (no header row captured yet — rather than "this is the first row
seen"), the current row's cell buffer becomes (overwrites) the table's
headers; otherwise the cell buffer is appended to the table's rows. -/
theorem claim3_tr_close_rule (s : MState) (t : CurrentTable)
    (h : s.currentTable = some t) :
    ((s.inThead = true ∨ t.headers = []) →
      step s .trClose = { s with currentTable := some ⟨s.currentRow, t.rows⟩ }) ∧
    (s.inThead = false → t.headers ≠ [] →
      step s .trClose =
        { s with currentTable := some ⟨t.headers, t.rows ++ [s.currentRow]⟩ }) := by
  constructor
  · intro hc
    have hcond : (s.inThead || t.headers.length = 0) = true := by
      rcases hc with hc | hc
      · simp [hc]
      · simp [hc]
    simp only [step, h, hcond]
    simp
  · intro h1 h2
    have hcond : (s.inThead || t.headers.length = 0) = false := by
      simp [h1, List.length_eq_zero, h2]
    simp only [step, h, hcond]
    simp

/-- Witness for the amended claim C3, at a concrete state: headers present
and within-head false, so the row is appended. -/
theorem claim3_tr_close_rule_witness :
    step { initState with
            currentTable := some ⟨["H"], [["r"]]⟩, currentRow := ["x"] } .trClose =
      { initState with
          currentTable := some ⟨["H"], [["r"], ["x"]]⟩, currentRow := ["x"] } := by
  have h := (claim3_tr_close_rule
    { initState with currentTable := some ⟨["H"], [["r"]]⟩, currentRow := ["x"] }
    ⟨["H"], [["r"]]⟩ rfl).2 rfl (by decide)
  exact h

/-- Claim C9.  `parseFile` fails with the descriptive not-found error
(returning no document) whenever the file collaborator reports the path
missing; `fetchDocs` fails with a descriptive error that contains the HTTP
status whenever the fetch collaborator reports a non-success status, and a
fetch-level failure propagates unchanged to the caller. -/
theorem claim9_io_failures (readFile : String → Option String)
    (fetch : String → Except String FetchResponse)
    (pipeline : String → List Event) (path url : String) :
    (readFile path = none →
      parseFile readFile pipeline path = .error ("File not found: " ++ path)) ∧
    (∀ res, fetch url = .ok res → res.ok = false →
      fetchDocs fetch pipeline url =
        .error ("Failed to fetch " ++ url ++ ": " ++ toString res.status)) ∧
    (∀ e, fetch url = .error e → fetchDocs fetch pipeline url = .error e) := by
  refine ⟨?_, ?_, ?_⟩
  · intro h
    simp [parseFile, h]
  · intro res hres hok
    simp [fetchDocs, hres, hok]
  · intro e he
    simp [fetchDocs, he]

/-- Characters of the collapsed run list are lowercase alphanumerics or
hyphens. -/
theorem collapseAux_mem (cs : List Char) :
    ∀ (b : Bool), ∀ c ∈ collapseAux b cs, isLowerAlnum c = true ∨ c = '-' := by
  induction cs with
  | nil =>
    intro b c hc
    simp [collapseAux] at hc
  | cons a rest ih =>
    intro b c hc
    simp only [collapseAux] at hc
    by_cases ha : isLowerAlnum a = true
    · rw [if_pos ha] at hc
      rcases List.mem_cons.mp hc with rfl | hc
      · exact Or.inl ha
      · exact ih false c hc
    · rw [if_neg ha] at hc
      cases b with
      | true =>
        rw [if_pos rfl] at hc
        exact ih true c hc
      | false =>
        rw [if_neg Bool.false_ne_true] at hc
        rcases List.mem_cons.mp hc with rfl | hc
        · exact Or.inr rfl
        · exact ih true c hc

/-- Inside a run (flag set) the collapse never starts with a hyphen: the
head, when present, is alphanumeric. -/
theorem collapseAux_true_head (cs : List Char) :
    ∀ c, (collapseAux true cs).head? = some c → isLowerAlnum c = true := by
  induction cs with
  | nil =>
    intro c hc
    simp [collapseAux] at hc
  | cons a rest ih =>
    intro c hc
    simp only [collapseAux] at hc
    by_cases ha : isLowerAlnum a = true
    · rw [if_pos ha] at hc
      rw [List.head?_cons, Option.some.injEq] at hc
      rw [← hc]
      exact ha
    · rw [if_neg ha, if_pos trivial] at hc
      exact ih c hc

/-- The collapse never emits two adjacent hyphens. -/
theorem collapseAux_chain (cs : List Char) :
    ∀ b, List.Chain' (fun x y => ¬(x = '-' ∧ y = '-')) (collapseAux b cs) := by
  induction cs with
  | nil =>
    intro b
    simp [collapseAux]
  | cons a rest ih =>
    intro b
    simp only [collapseAux]
    by_cases ha : isLowerAlnum a = true
    · rw [if_pos ha, List.chain'_cons']
      refine ⟨?_, ih false⟩
      rintro y hy ⟨h1, h2⟩
      rw [h1] at ha
      exact absurd ha (by decide)
    · rw [if_neg ha]
      cases b with
      | true =>
        rw [if_pos rfl]
        exact ih true
      | false =>
        rw [if_neg Bool.false_ne_true, List.chain'_cons']
        refine ⟨?_, ih true⟩
        rintro y hy ⟨h1, h2⟩
        have halnum := collapseAux_true_head rest y (Option.mem_def.mp hy)
        rw [h2] at halnum
        exact absurd halnum (by decide)

/-- In a chained list, the last element of `dropLast` and the last element
of the list are related by the chain relation. -/
theorem chain'_last_two {R : Char → Char → Prop} :
    ∀ (l : List Char) (x y : Char), List.Chain' R l → l.getLast? = some y →
      l.dropLast.getLast? = some x → R x y := by
  intro l
  induction l with
  | nil =>
    intro x y _ _ hx
    simp at hx
  | cons a t ih =>
    intro x y hchain hy hx
    cases t with
    | nil => simp at hx
    | cons b t2 =>
      cases t2 with
      | nil =>
        simp at hy hx
        subst hy
        subst hx
        exact (List.chain'_cons'.mp hchain).1 _ rfl
      | cons c t3 =>
        refine ih x y hchain.tail (by simpa using hy) ?_
        have hdl : (a :: b :: c :: t3).dropLast = a :: (b :: c :: t3).dropLast := rfl
        rw [hdl] at hx
        have hne : (b :: c :: t3).dropLast = b :: (c :: t3).dropLast := rfl
        rw [hne] at hx ⊢
        simpa using hx

/-- In a list with no adjacent hyphens that ends in a hyphen, the element
before the final hyphen is not a hyphen. -/
theorem getLast?_dropLast_ne_hyphen (l : List Char)
    (hchain : List.Chain' (fun x y => ¬(x = '-' ∧ y = '-')) l)
    (hlast : l.getLast? = some '-') :
    l.dropLast.getLast? ≠ some '-' := by
  intro h2
  exact chain'_last_two l '-' '-' hchain hlast h2 ⟨rfl, rfl⟩

/-- The edge strip keeps only characters of its input. -/
theorem stripEdgeHyphens_sublist (l : List Char) :
    (stripEdgeHyphens l).Sublist l := by
  have h2 : (dropTrailingHyphen (dropLeadingHyphen l)).Sublist (dropLeadingHyphen l) := by
    unfold dropTrailingHyphen
    split
    · exact List.dropLast_sublist _
    · exact List.Sublist.refl _
  have h1 : (dropLeadingHyphen l).Sublist l := by
    unfold dropLeadingHyphen
    split
    · exact List.sublist_cons_self _ _
    · exact List.Sublist.refl _
  exact h2.trans h1

/-- After removing the leading hyphen from a chained list, the head is not
a hyphen. -/
theorem dropLeadingHyphen_head (l : List Char)
    (hchain : List.Chain' (fun x y => ¬(x = '-' ∧ y = '-')) l) :
    (dropLeadingHyphen l).head? ≠ some '-' := by
  unfold dropLeadingHyphen
  split
  next rest =>
    intro hh
    exact (List.chain'_cons'.mp hchain).1 '-' (Option.mem_def.mpr hh) ⟨rfl, rfl⟩
  next hne =>
    intro hh
    cases l with
    | nil => simp at hh
    | cons c rest =>
      rw [List.head?_cons, Option.some.injEq] at hh
      subst hh
      exact hne rest rfl

/-- Removing the trailing hyphen keeps a hyphen-free head hyphen-free. -/
theorem dropTrailingHyphen_head (a : List Char) (h : a.head? ≠ some '-') :
    (dropTrailingHyphen a).head? ≠ some '-' := by
  unfold dropTrailingHyphen
  split
  · rw [List.head?_dropLast]
    split
    · exact h
    · simp
  · exact h

/-- After removing the trailing hyphen from a chained list, the last
element is not a hyphen. -/
theorem dropTrailingHyphen_getLast (a : List Char)
    (hchain : List.Chain' (fun x y => ¬(x = '-' ∧ y = '-')) a) :
    (dropTrailingHyphen a).getLast? ≠ some '-' := by
  unfold dropTrailingHyphen
  split
  next heq => exact getLast?_dropLast_ne_hyphen a hchain heq
  next x heq => exact heq

/-- Dropping a leading hyphen preserves the no-adjacent-hyphens chain. -/
theorem dropLeadingHyphen_chain (l : List Char)
    (hchain : List.Chain' (fun x y => ¬(x = '-' ∧ y = '-')) l) :
    List.Chain' (fun x y => ¬(x = '-' ∧ y = '-')) (dropLeadingHyphen l) := by
  unfold dropLeadingHyphen
  split
  · exact hchain.tail
  · exact hchain

/-- Dropping a trailing hyphen preserves the no-adjacent-hyphens chain. -/
theorem dropTrailingHyphen_chain (a : List Char)
    (hchain : List.Chain' (fun x y => ¬(x = '-' ∧ y = '-')) a) :
    List.Chain' (fun x y => ¬(x = '-' ∧ y = '-')) (dropTrailingHyphen a) := by
  unfold dropTrailingHyphen
  split
  · rw [List.dropLast_eq_take]
    exact hchain.take _
  · exact hchain

/-- Keys after a JavaScript object assignment: unchanged for an existing
key, extended at the end for a new one. -/
theorem setKey_keys (obj : List (String × String)) (k v : String) :
    (setKey obj k v).map Prod.fst =
      if k ∈ obj.map Prod.fst then obj.map Prod.fst
      else obj.map Prod.fst ++ [k] := by
  induction obj with
  | nil => simp [setKey]
  | cons p rest ih =>
    obtain ⟨k0, v0⟩ := p
    by_cases hk : k0 = k
    · subst hk
      simp [setKey]
    · simp only [setKey, if_neg hk, List.map_cons, ih]
      by_cases hmem : k ∈ rest.map Prod.fst
      · rw [if_pos hmem, if_pos (by simp [List.mem_cons, hmem])]
      · rw [if_neg hmem, if_neg (by
          simp only [List.mem_cons]
          rintro (rfl | hc)
          · exact hk rfl
          · exact hmem hc)]
        simp

/-- Key membership after a JavaScript object assignment. -/
theorem setKey_mem_keys (obj : List (String × String)) (k v q : String) :
    q ∈ (setKey obj k v).map Prod.fst ↔ q ∈ obj.map Prod.fst ∨ q = k := by
  rw [setKey_keys]
  split
  next hmem =>
    constructor
    · exact Or.inl
    · rintro (hq | rfl)
      · exact hq
      · exact hmem
  next hmem => simp [List.mem_append]

/-- A JavaScript object assignment keeps the keys without duplicates. -/
theorem setKey_nodup (obj : List (String × String)) (k v : String)
    (h : (obj.map Prod.fst).Nodup) :
    ((setKey obj k v).map Prod.fst).Nodup := by
  rw [setKey_keys]
  split
  · exact h
  next hmem =>
    rw [List.nodup_append]
    refine ⟨h, List.nodup_singleton _, ?_⟩
    intro a ha hb
    rw [List.mem_singleton] at hb
    subst hb
    exact hmem ha

/-- Looking up the assigned key yields the assigned value. -/
theorem setKey_lookup_self (obj : List (String × String)) (k v : String) :
    List.lookup k (setKey obj k v) = some v := by
  induction obj with
  | nil => simp [setKey, List.lookup]
  | cons p rest ih =>
    obtain ⟨k0, v0⟩ := p
    by_cases hk : k0 = k
    · subst hk
      simp [setKey, List.lookup]
    · rw [setKey, if_neg hk, List.lookup_cons]
      have hne : (k == k0) = false := beq_eq_false_iff_ne.mpr (Ne.symm hk)
      rw [hne]
      exact ih

/-- Looking up a different key is unaffected by an assignment. -/
theorem setKey_lookup_ne (obj : List (String × String)) (k v q : String)
    (h : q ≠ k) :
    List.lookup q (setKey obj k v) = List.lookup q obj := by
  induction obj with
  | nil =>
    simp [setKey, List.lookup_cons, beq_eq_false_iff_ne.mpr h]
  | cons p rest ih =>
    obtain ⟨k0, v0⟩ := p
    by_cases hk : k0 = k
    · subst hk
      rw [setKey, if_pos rfl, List.lookup_cons, List.lookup_cons,
        beq_eq_false_iff_ne.mpr h]
    · rw [setKey, if_neg hk, List.lookup_cons, List.lookup_cons]
      cases hq : q == k0 with
      | true => rfl
      | false => exact ih

/-- Key membership of the row-object fold. -/
theorem rowObj_fold_mem (row : List String) :
    ∀ (l : List (Nat × String)) (obj : List (String × String)) (k : String),
      (k ∈ ((l.foldl
          (fun o hi => setKey o hi.2 (jsTrim ((row.get? hi.1).getD ""))) obj).map
          Prod.fst) ↔
        k ∈ obj.map Prod.fst ∨ k ∈ l.map Prod.snd) := by
  intro l
  induction l with
  | nil => intro obj k; simp
  | cons hi l ih =>
    intro obj k
    rw [List.foldl_cons, ih, setKey_mem_keys]
    simp only [List.map_cons, List.mem_cons]
    tauto

/-- The row-object fold keeps the keys without duplicates. -/
theorem rowObj_fold_nodup (row : List String) :
    ∀ (l : List (Nat × String)) (obj : List (String × String)),
      (obj.map Prod.fst).Nodup →
      (((l.foldl
          (fun o hi => setKey o hi.2 (jsTrim ((row.get? hi.1).getD ""))) obj)).map
          Prod.fst).Nodup := by
  intro l
  induction l with
  | nil => intro obj h; exact h
  | cons hi l ih =>
    intro obj h
    rw [List.foldl_cons]
    exact ih _ (setKey_nodup _ _ _ h)

/-- A key that the remaining fold never assigns keeps its lookup. -/
theorem rowObj_fold_lookup_notmem (row : List String) :
    ∀ (l : List (Nat × String)) (obj : List (String × String)) (h : String),
      h ∉ l.map Prod.snd →
      List.lookup h
          (l.foldl (fun o hi => setKey o hi.2 (jsTrim ((row.get? hi.1).getD ""))) obj) =
        List.lookup h obj := by
  intro l
  induction l with
  | nil => intro obj h _; rfl
  | cons hi l ih =>
    intro obj h hnot
    rw [List.foldl_cons, ih _ h (by
      intro hc
      exact hnot (by simp [List.mem_cons, hc]))]
    exact setKey_lookup_ne _ _ _ _ (by
      intro hc
      exact hnot (by simp [List.mem_cons, hc]))

/-- The lookup of a key equals the value written at its last assignment. -/
theorem rowObj_fold_lookup_last (row : List String) :
    ∀ (l : List (Nat × String)) (obj : List (String × String)) (j i : Nat)
      (h : String),
      l.get? j = some (i, h) →
      (∀ jj i2, j < jj → l.get? jj ≠ some (i2, h)) →
      List.lookup h
          (l.foldl (fun o hi => setKey o hi.2 (jsTrim ((row.get? hi.1).getD ""))) obj) =
        some (jsTrim ((row.get? i).getD "")) := by
  intro l
  induction l with
  | nil =>
    intro obj j i h hj _
    cases j <;> exact Option.noConfusion hj
  | cons hi l ih =>
    intro obj j i h hj hlater
    rw [List.foldl_cons]
    cases j with
    | zero =>
      rw [List.get?_cons_zero, Option.some.injEq] at hj
      subst hj
      have hnot : h ∉ l.map Prod.snd := by
        intro hmem
        rcases List.mem_map.mp hmem with ⟨p, hp, hsnd⟩
        rcases List.mem_iff_get?.mp hp with ⟨n, hn⟩
        refine hlater (n + 1) p.1 (Nat.succ_pos n) ?_
        rw [List.get?_cons_succ, hn]
        obtain ⟨p1, p2⟩ := p
        simp only at hsnd
        rw [hsnd]
      rw [rowObj_fold_lookup_notmem row l _ h hnot]
      exact setKey_lookup_self _ _ _
    | succ j2 =>
      rw [List.get?_cons_succ] at hj
      refine ih _ j2 i h hj ?_
      intro jj i2 hlt hc
      refine hlater (jj + 1) i2 (Nat.succ_lt_succ hlt) ?_
      rw [List.get?_cons_succ]
      exact hc

/-- Key set of a row mapping: exactly the headers, as a set. -/
theorem rowObj_mem_keys (hs row : List String) (k : String) :
    k ∈ (rowObj hs row).map Prod.fst ↔ k ∈ hs := by
  unfold rowObj
  rw [rowObj_fold_mem]
  simp [List.enum_map_snd]

/-- A row mapping has no duplicate keys. -/
theorem rowObj_nodup_keys (hs row : List String) :
    ((rowObj hs row).map Prod.fst).Nodup := by
  unfold rowObj
  exact rowObj_fold_nodup row _ [] (by simp)

/-- A row mapping sends a header to the trimmed cell text at the header's
last occurrence. -/
theorem rowObj_lookup_last (hs row : List String) (j : Nat) (h : String)
    (hlast : IsLastOcc hs j h) :
    List.lookup h (rowObj hs row) = some (jsTrim ((row.get? j).getD "")) := by
  unfold rowObj
  refine rowObj_fold_lookup_last row hs.enum [] j j h ?_ ?_
  · rw [List.get?_enum, hlast.1]
    rfl
  · intro jj i2 hlt hc
    rw [List.get?_enum] at hc
    rcases hget : hs.get? jj with _ | a
    · rw [hget] at hc
      exact Option.noConfusion hc
    · rw [hget] at hc
      simp at hc
      exact hlast.2 jj hlt (by rw [hget, hc.2])

/-- Every member of a list has a last occurrence. -/
theorem exists_last_occ (hs : List String) (h : String) (hmem : h ∈ hs) :
    ∃ j, IsLastOcc hs j h := by
  induction hs with
  | nil => simp at hmem
  | cons a tl ih =>
    by_cases htl : h ∈ tl
    · rcases ih htl with ⟨j, hj1, hj2⟩
      refine ⟨j + 1, by rw [List.get?_cons_succ]; exact hj1, ?_⟩
      intro jj hlt
      cases jj with
      | zero => omega
      | succ jj2 =>
        rw [List.get?_cons_succ]
        exact hj2 jj2 (by omega)
    · have ha : h = a := by
        rcases List.mem_cons.mp hmem with h1 | h1
        · exact h1
        · exact absurd h1 htl
      subst ha
      refine ⟨0, rfl, ?_⟩
      intro jj hlt hcon
      cases jj with
      | zero => omega
      | succ jj2 =>
        rw [List.get?_cons_succ] at hcon
        exact htl (List.mem_iff_get?.mpr ⟨jj2, hcon⟩)

/-- Any step leaves old sections alone, and can add only non-table sections
or a table section built by the table close handler. -/
theorem step_table_new (s : MState) (e : Event) :
    ∀ x ∈ (step s e).sections, x ∈ s.sections ∨ x.isTable = false ∨
      ∃ i hs raws,
        x = Section.table i hs (raws.map (rowObj hs)) (formatTableMd hs raws) := by
  cases e <;>
    first
      | (intro x hx; exact Or.inl hx)
      | (simp only [step] <;> (try split) <;> (try split) <;>
          intro x hx <;>
          first
            | exact Or.inl hx
            | (rcases List.mem_append.mp hx with hx2 | hx2
               · exact Or.inl hx2
               · simp only [List.mem_singleton] at hx2
                 subst hx2
                 first
                   | exact Or.inr (Or.inl rfl)
                   | exact Or.inr (Or.inr ⟨_, _, _, rfl⟩)))

/-- Every table section in the output was built by the table close handler:
its mappings come from `rowObj` over its headers and some raw cell rows,
and its raw text from `formatTableMd`. -/
theorem table_sections_shape (evs : List Event) :
    ∀ i hs maps raw, Section.table i hs maps raw ∈ (parseEvents evs).sections →
      ∃ raws, maps = raws.map (rowObj hs) ∧ raw = formatTableMd hs raws := by
  have h := parseEvents_inv
    (fun s => ∀ i hs maps raw, Section.table i hs maps raw ∈ s.sections →
      ∃ raws, maps = raws.map (rowObj hs) ∧ raw = formatTableMd hs raws)
    (by intro i hs maps raw hmem; simp [initState] at hmem)
    (fun s e hp => by
      intro i hs maps raw hmem
      rcases step_table_new s e _ hmem with hold | hfalse | ⟨i2, hs2, raws, heq⟩
      · exact hp i hs maps raw hold
      · simp [Section.isTable] at hfalse
      · rw [Section.table.injEq] at heq
        exact ⟨raws, heq.2.2.1.symm ▸ heq.2.1 ▸ by simp [heq.2.2.1, heq.2.2.2], by
          rw [heq.2.2.2, heq.2.1]⟩)
    evs
  exact h

/-- Whitespace characters are never word characters. -/
theorem ws_not_word (c : Char) (h : jsIsWs c = true) : jsIsWordChar c = false := by
  have hc : c ∈ jsWsChars := by
    unfold jsIsWs at h
    simpa using h
  fin_cases hc <;> decide

/-- Word characters are accepted by the regex dot. -/
theorem word_is_dot (c : Char) (h : jsIsWordChar c = true) :
    jsIsDotChar c = true := by
  have h1 : c ≠ '\n' := by intro e; rw [e] at h; exact absurd h (by decide)
  have h2 : c ≠ '\r' := by intro e; rw [e] at h; exact absurd h (by decide)
  have h3 : c ≠ '\u2028' := by intro e; rw [e] at h; exact absurd h (by decide)
  have h4 : c ≠ '\u2029' := by intro e; rw [e] at h; exact absurd h (by decide)
  simp [jsIsDotChar, h1, h2, h3, h4]

/-- `takeWhile` passes over a block of characters all satisfying the
predicate. -/
theorem takeWhile_append_all (p : Char → Bool) (l1 l2 : List Char)
    (h : ∀ c ∈ l1, p c = true) :
    (l1 ++ l2).takeWhile p = l1 ++ l2.takeWhile p := by
  induction l1 with
  | nil => simp
  | cons a l ih =>
    rw [List.cons_append,
      List.takeWhile_cons_of_pos (h a (List.mem_cons_self a l)),
      ih (fun c hc => h c (List.mem_cons_of_mem a hc))]
    rfl

/-- Taking as many elements as the matched run reproduces the run. -/
theorem takeWhile_length_take (p : Char → Bool) (l : List Char) :
    l.take (l.takeWhile p).length = l.takeWhile p := by
  induction l with
  | nil => simp
  | cons a l ih =>
    by_cases ha : p a = true
    · rw [List.takeWhile_cons_of_pos ha]
      simpa using ih
    · rw [List.takeWhile_cons_of_neg ha]
      rfl

/-- The `\s*\n` tail matches exactly when the text starts with whitespace
containing a newline. -/
theorem wsNl_iff (cs : List Char) :
    wsNl cs = true ↔
      ∃ ws rest, cs = ws ++ '\n' :: rest ∧ ∀ c ∈ ws, jsIsWs c = true := by
  induction cs with
  | nil =>
    unfold wsNl
    simp only [List.takeWhile_nil, List.contains]
    constructor
    · intro h
      exact absurd h (by decide)
    · rintro ⟨ws, rest, h, _⟩
      exact absurd h.symm (by simp)
  | cons c rest ih =>
    by_cases hc : jsIsWs c = true
    · unfold wsNl
      rw [List.takeWhile_cons_of_pos hc]
      by_cases hcn : c = '\n'
      · subst hcn
        simp only [List.contains_cons]
        constructor
        · intro _
          exact ⟨[], rest, rfl, by simp⟩
        · intro _
          simp
      · rw [List.contains_cons]
        have hbeq : ('\n' == c) = false := beq_eq_false_iff_ne.mpr (Ne.symm hcn)
        rw [hbeq, Bool.false_or]
        rw [show (rest.takeWhile jsIsWs).contains '\n' = wsNl rest from rfl, ih]
        constructor
        · rintro ⟨ws, rest2, hr, hws⟩
          exact ⟨c :: ws, rest2, by rw [List.cons_append, hr], by
            intro d hd
            rcases List.mem_cons.mp hd with rfl | hd
            · exact hc
            · exact hws d hd⟩
        · rintro ⟨ws, rest2, hr, hws⟩
          cases ws with
          | nil =>
            rw [List.nil_append] at hr
            rw [List.cons.injEq] at hr
            exact absurd hr.1 hcn
          | cons w ws2 =>
            rw [List.cons_append, List.cons.injEq] at hr
            exact ⟨ws2, rest2, hr.2, fun d hd =>
              hws d (List.mem_cons_of_mem w hd)⟩
    · unfold wsNl
      rw [List.takeWhile_cons_of_neg hc]
      constructor
      · intro h
        exact absurd h (by decide)
      · rintro ⟨ws, rest2, hr, hws⟩
        cases ws with
        | nil =>
          rw [List.nil_append, List.cons.injEq] at hr
          rw [hr.1] at hc
          exact (hc (by decide)).elim
        | cons w ws2 =>
          rw [List.cons_append, List.cons.injEq] at hr
          rw [hr.1] at hc
          exact (hc (hws w (List.mem_cons_self w ws2))).elim

/-- Soundness of the name-length search: a successful match decomposes the
input into name, dot, extension, whitespace and newline, with the capture
equal to name-dot-extension. -/
theorem tryNameLen_sound :
    ∀ (n : Nat) (run rest : List Char) (cap : String),
      (∀ c ∈ run, jsIsDotChar c = true) → n ≤ run.length →
      tryNameLen run rest n = some cap →
      ∃ name ext ws2 rest2,
        run ++ rest = name ++ '.' :: ext ++ ws2 ++ '\n' :: rest2 ∧
        name ≠ [] ∧ (∀ c ∈ name, jsIsDotChar c = true) ∧
        ext ≠ [] ∧ (∀ c ∈ ext, jsIsWordChar c = true) ∧
        (∀ c ∈ ws2, jsIsWs c = true) ∧
        cap.data = name ++ '.' :: ext := by
  intro n
  induction n with
  | zero =>
    intro run rest cap _ _ hmatch
    exact Option.noConfusion hmatch
  | succ k ih =>
    intro run rest cap hdot hle hmatch
    simp only [tryNameLen] at hmatch
    split at hmatch
    next after heq =>
      split at hmatch
      next hcond =>
        rw [Option.some.injEq] at hmatch
        rw [Bool.and_eq_true] at hcond
        obtain ⟨hwne0, hwsnl⟩ := hcond
        have hwne : after.takeWhile jsIsWordChar ≠ [] := by
          intro hnil
          rw [hnil] at hwne0
          simp at hwne0
        set w := after.takeWhile jsIsWordChar with hw
        rcases (wsNl_iff _).mp hwsnl with ⟨ws2, rest2, hdrop, hws2⟩
        refine ⟨run.take (k + 1), w, ws2, rest2, ?_, ?_, ?_, ?_, ?_, hws2, ?_⟩
        · have hafter : after = w ++ after.drop w.length := by
            conv_lhs => rw [← List.take_append_drop w.length after]
            rw [hw, takeWhile_length_take]
          calc run ++ rest
              = run.take (k + 1) ++ (run.drop (k + 1) ++ rest) := by
                rw [← List.append_assoc, List.take_append_drop]
            _ = run.take (k + 1) ++ '.' :: after := by rw [heq]
            _ = run.take (k + 1) ++ '.' :: (w ++ (ws2 ++ '\n' :: rest2)) := by
                rw [← hdrop, ← hafter]
            _ = _ := by simp
        · have : (run.take (k + 1)).length = min (k + 1) run.length := by simp
          intro hnil
          rw [hnil] at this
          simp at this
          omega
        · intro c hc
          exact hdot c (List.take_subset (k + 1) run hc)
        · intro hnil
          rw [hw] at hnil
          exact hwne hnil
        · intro c hc
          exact List.mem_takeWhile_imp hc
        · rw [← hmatch]
      next =>
        exact ih run rest cap hdot (Nat.le_of_succ_le hle) hmatch
    next =>
      exact ih run rest cap hdot (Nat.le_of_succ_le hle) hmatch

/-- Completeness of the name-length search: if some name length up to the
search bound succeeds, the search succeeds. -/
theorem tryNameLen_complete (run rest : List Char) :
    ∀ (n j : Nat), 1 ≤ j → j ≤ n → NameLenOk run rest j →
      (tryNameLen run rest n).isSome = true := by
  intro n
  induction n with
  | zero =>
    intro j h1 h2 _
    omega
  | succ k ih =>
    intro j h1 h2 hok
    by_cases hj : j = k + 1
    · subst hj
      rcases hok with ⟨after, heq, hwne, hwsnl⟩
      have hcond : (!(after.takeWhile jsIsWordChar).isEmpty &&
          wsNl (after.drop (after.takeWhile jsIsWordChar).length)) = true := by
        rw [Bool.and_eq_true, Bool.not_eq_true', hwsnl]
        refine ⟨?_, rfl⟩
        rw [← Bool.not_eq_true, List.isEmpty_iff]
        exact hwne
      simp only [tryNameLen]
      split
      next after2 heq2 =>
        rw [heq, List.cons.injEq] at heq2
        obtain ⟨-, heq3⟩ := heq2
        subst heq3
        rw [if_pos hcond]
        rfl
      next hno =>
        exact (hno after heq).elim
    · have hjk : j ≤ k := by omega
      simp only [tryNameLen]
      split
      · split
        · rfl
        · exact ih j h1 hjk hok
      · exact ih j h1 hjk hok

/-- Soundness of the capture matcher. -/
theorem matchCapture_sound (cs : List Char) (cap : String)
    (h : matchCapture cs = some cap) :
    ∃ name ext ws2 rest2,
      cs = name ++ '.' :: ext ++ ws2 ++ '\n' :: rest2 ∧
      name ≠ [] ∧ (∀ c ∈ name, jsIsDotChar c = true) ∧
      ext ≠ [] ∧ (∀ c ∈ ext, jsIsWordChar c = true) ∧
      (∀ c ∈ ws2, jsIsWs c = true) ∧
      cap.data = name ++ '.' :: ext := by
  unfold matchCapture at h
  have hsplit : cs.takeWhile jsIsDotChar ++ cs.drop (cs.takeWhile jsIsDotChar).length = cs := by
    conv_rhs => rw [← List.take_append_drop (cs.takeWhile jsIsDotChar).length cs]
    rw [takeWhile_length_take]
  rcases tryNameLen_sound (cs.takeWhile jsIsDotChar).length (cs.takeWhile jsIsDotChar)
      (cs.drop (cs.takeWhile jsIsDotChar).length) cap
      (fun c hc => List.mem_takeWhile_imp hc) (Nat.le_refl _) h with
    ⟨name, ext, ws2, rest2, hdec, hprops⟩
  rw [hsplit] at hdec
  exact ⟨name, ext, ws2, rest2, hdec, hprops⟩

/-- Completeness of the capture matcher: any valid decomposition makes it
succeed. -/
theorem matchCapture_complete (cs name ext ws2 rest2 : List Char)
    (hcs : cs = name ++ '.' :: ext ++ ws2 ++ '\n' :: rest2)
    (hname : name ≠ []) (hnamedot : ∀ c ∈ name, jsIsDotChar c = true)
    (hext : ext ≠ []) (hextw : ∀ c ∈ ext, jsIsWordChar c = true)
    (hws2 : ∀ c ∈ ws2, jsIsWs c = true) :
    (matchCapture cs).isSome = true := by
  unfold matchCapture
  have hrunlen : name.length + 1 + ext.length ≤ (cs.takeWhile jsIsDotChar).length := by
    have : cs.takeWhile jsIsDotChar =
        name ++ '.' :: (ext ++ (ws2 ++ '\n' :: rest2).takeWhile jsIsDotChar) := by
      rw [hcs]
      rw [show name ++ '.' :: ext ++ ws2 ++ '\n' :: rest2 =
        name ++ ('.' :: ext ++ (ws2 ++ '\n' :: rest2)) by simp]
      rw [takeWhile_append_all _ name _ hnamedot]
      rw [show ('.' :: ext ++ (ws2 ++ '\n' :: rest2)) =
        ('.' :: ext) ++ (ws2 ++ '\n' :: rest2) by simp]
      rw [takeWhile_append_all _ ('.' :: ext) _ (by
        intro c hc
        rcases List.mem_cons.mp hc with rfl | hc
        · decide
        · exact word_is_dot c (hextw c hc))]
      simp
    rw [this]
    simp
    omega
  refine tryNameLen_complete _ _ _ name.length (by
      rcases name with _ | _
      · exact absurd rfl hname
      · simp) (by omega) ?_
  refine ⟨ext ++ ws2 ++ '\n' :: rest2, ?_, ?_, ?_⟩
  · have hlen : name.length ≤ (cs.takeWhile jsIsDotChar).length := by omega
    have hfull : cs.takeWhile jsIsDotChar ++ cs.drop (cs.takeWhile jsIsDotChar).length = cs := by
      conv_rhs => rw [← List.take_append_drop (cs.takeWhile jsIsDotChar).length cs]
      rw [takeWhile_length_take]
    have hdrop : (cs.takeWhile jsIsDotChar).drop name.length ++
        cs.drop (cs.takeWhile jsIsDotChar).length = cs.drop name.length := by
      conv_rhs => rw [← hfull]
      rw [List.drop_append_of_le_length hlen]
    rw [hdrop, hcs]
    rw [show name ++ '.' :: ext ++ ws2 ++ '\n' :: rest2 =
      name ++ ('.' :: (ext ++ ws2 ++ '\n' :: rest2)) by simp]
    rw [List.drop_left]
  · have htw : (ext ++ ws2 ++ '\n' :: rest2).takeWhile jsIsWordChar =
        ext ++ (ws2 ++ '\n' :: rest2).takeWhile jsIsWordChar := by
      rw [List.append_assoc]
      exact takeWhile_append_all _ ext _ hextw
    have hnil : (ws2 ++ '\n' :: rest2).takeWhile jsIsWordChar = [] := by
      cases ws2 with
      | nil =>
        rw [List.nil_append]
        exact List.takeWhile_cons_of_neg (by decide)
      | cons w ws' =>
        rw [List.cons_append]
        refine List.takeWhile_cons_of_neg ?_
        rw [ws_not_word w (hws2 w (List.mem_cons_self w ws'))]
        exact Bool.false_ne_true
    rw [htw, hnil, List.append_nil]
    exact hext
  · have htw : (ext ++ ws2 ++ '\n' :: rest2).takeWhile jsIsWordChar = ext := by
      rw [List.append_assoc, takeWhile_append_all _ ext _ hextw]
      have hnil : (ws2 ++ '\n' :: rest2).takeWhile jsIsWordChar = [] := by
        cases ws2 with
        | nil =>
          rw [List.nil_append]
          exact List.takeWhile_cons_of_neg (by decide)
        | cons w ws' =>
          rw [List.cons_append]
          refine List.takeWhile_cons_of_neg ?_
          rw [ws_not_word w (hws2 w (List.mem_cons_self w ws'))]
          exact Bool.false_ne_true
      rw [hnil, List.append_nil]
    rw [htw]
    rw [List.append_assoc, List.drop_left]
    exact (wsNl_iff _).mpr ⟨ws2, rest2, rfl, hws2⟩

/-- Boolean prefix test versus explicit decomposition. -/
theorem isPrefixOf_iff_exists_append (l1 l2 : List Char) :
    l1.isPrefixOf l2 = true ↔ ∃ t, l2 = l1 ++ t := by
  induction l1 generalizing l2 with
  | nil => simp [List.isPrefixOf]
  | cons a as ih =>
    cases l2 with
    | nil => simp [List.isPrefixOf]
    | cons b bs =>
      simp only [List.isPrefixOf, Bool.and_eq_true, beq_iff_eq, ih,
        List.cons_append, List.cons.injEq]
      constructor
      · rintro ⟨rfl, t, rfl⟩
        exact ⟨t, rfl, rfl⟩
      · rintro ⟨t, rfl, rfl⟩
        exact ⟨rfl, t, rfl⟩

/-- Soundness of the whitespace backtracking: a success comes from the
capture matcher at some stripped-whitespace position. -/
theorem tryWsLen_sound (cs : List Char) :
    ∀ (n : Nat) (cap : String), tryWsLen cs n = some cap →
      ∃ k, k ≤ n ∧ matchCapture (cs.drop k) = some cap := by
  intro n
  induction n with
  | zero =>
    intro cap h
    exact ⟨0, Nat.le_refl 0, by simpa using h⟩
  | succ m ih =>
    intro cap h
    simp only [tryWsLen] at h
    split at h
    next heq =>
      rw [Option.some.injEq] at h
      exact ⟨m + 1, Nat.le_refl _, by rw [heq, h]⟩
    next =>
      rcases ih cap h with ⟨k, hk, hmc⟩
      exact ⟨k, Nat.le_succ_of_le hk, hmc⟩

/-- Completeness of the whitespace backtracking. -/
theorem tryWsLen_complete (cs : List Char) :
    ∀ (n k : Nat), k ≤ n → (matchCapture (cs.drop k)).isSome = true →
      (tryWsLen cs n).isSome = true := by
  intro n
  induction n with
  | zero =>
    intro k hk h
    have : k = 0 := by omega
    subst this
    simpa using h
  | succ m ih =>
    intro k hk h
    simp only [tryWsLen]
    split
    · rfl
    next hnone =>
      by_cases hkm : k = m + 1
      · subst hkm
        rw [hnone] at h
        exact absurd h (by decide)
      · exact ih k (by omega) h

/-- Soundness of one regex alternative: a successful match decomposes the
input as marker, whitespace, name, dot, extension, whitespace, newline. -/
theorem matchAfterMarker_sound (marker : String) (cs : List Char) (cap : String)
    (h : matchAfterMarker marker cs = some cap) :
    ∃ ws1 name ext ws2 rest2,
      cs = marker.data ++ ws1 ++ name ++ '.' :: ext ++ ws2 ++ '\n' :: rest2 ∧
      (∀ c ∈ ws1, jsIsWs c = true) ∧
      name ≠ [] ∧ (∀ c ∈ name, jsIsDotChar c = true) ∧
      ext ≠ [] ∧ (∀ c ∈ ext, jsIsWordChar c = true) ∧
      (∀ c ∈ ws2, jsIsWs c = true) ∧
      cap.data = name ++ '.' :: ext := by
  unfold matchAfterMarker at h
  split at h
  next hpref =>
    rcases (isPrefixOf_iff_exists_append marker.data cs).mp hpref with ⟨tail, htail⟩
    have hdrop : cs.drop marker.length = tail := by
      rw [htail, show marker.length = marker.data.length from rfl, List.drop_left]
    rw [hdrop] at h
    rcases tryWsLen_sound tail _ cap h with ⟨k, hk, hmc⟩
    rcases matchCapture_sound (tail.drop k) cap hmc with
      ⟨name, ext, ws2, rest2, hdec, hname, hnamedot, hext, hextw, hws2, hcap⟩
    refine ⟨tail.take k, name, ext, ws2, rest2, ?_, ?_, hname, hnamedot, hext,
      hextw, hws2, hcap⟩
    · calc cs = marker.data ++ tail := htail
        _ = marker.data ++ (tail.take k ++ tail.drop k) := by
            rw [List.take_append_drop]
        _ = marker.data ++ tail.take k ++ name ++ '.' :: ext ++ ws2 ++
              '\n' :: rest2 := by
            rw [hdec]
            simp
    · intro c hc
      have hktw : tail.take k = (tail.takeWhile jsIsWs).take k := by
        conv_lhs => rw [← List.takeWhile_append_dropWhile jsIsWs tail]
        exact List.take_append_of_le_length hk
      rw [hktw] at hc
      exact List.mem_takeWhile_imp (List.take_subset k _ hc)
  next =>
    exact Option.noConfusion h

/-- Completeness of one regex alternative. -/
theorem matchAfterMarker_complete (marker : String) (cs : List Char)
    (ws1 name ext ws2 rest2 : List Char)
    (hcs : cs = marker.data ++ ws1 ++ name ++ '.' :: ext ++ ws2 ++ '\n' :: rest2)
    (hws1 : ∀ c ∈ ws1, jsIsWs c = true)
    (hname : name ≠ []) (hnamedot : ∀ c ∈ name, jsIsDotChar c = true)
    (hext : ext ≠ []) (hextw : ∀ c ∈ ext, jsIsWordChar c = true)
    (hws2 : ∀ c ∈ ws2, jsIsWs c = true) :
    (matchAfterMarker marker cs).isSome = true := by
  unfold matchAfterMarker
  have hpref : marker.data.isPrefixOf cs = true := by
    rw [isPrefixOf_iff_exists_append]
    exact ⟨ws1 ++ name ++ '.' :: ext ++ ws2 ++ '\n' :: rest2, by rw [hcs]; simp⟩
  rw [if_pos hpref]
  have hdrop : cs.drop marker.length =
      ws1 ++ (name ++ '.' :: ext ++ ws2 ++ '\n' :: rest2) := by
    rw [hcs, show marker.length = marker.data.length from rfl]
    rw [show marker.data ++ ws1 ++ name ++ '.' :: ext ++ ws2 ++ '\n' :: rest2 =
      marker.data ++ (ws1 ++ (name ++ '.' :: ext ++ ws2 ++ '\n' :: rest2)) by simp]
    rw [List.drop_left]
  rw [hdrop]
  refine tryWsLen_complete _ _ ws1.length ?_ ?_
  · rw [takeWhile_append_all jsIsWs ws1 _ hws1]
    simp
  · rw [List.drop_left]
    exact matchCapture_complete _ name ext ws2 rest2 (by simp) hname hnamedot
      hext hextw hws2

/-- Soundness of the filename detection. -/
theorem detectFilename_sound (code : String) (cap : String)
    (h : detectFilename code = some cap) :
    FilenameShape "//".data code cap ∨ FilenameShape "#".data code cap := by
  unfold detectFilename at h
  split at h
  next heq =>
    rw [Option.some.injEq] at h
    subst h
    rcases matchAfterMarker_sound "//" code.data _ heq with
      ⟨ws1, name, ext, ws2, rest2, hdec, hprops⟩
    exact Or.inl ⟨ws1, name, ext, ws2, rest2, hdec, hprops⟩
  next =>
    rcases matchAfterMarker_sound "#" code.data cap h with
      ⟨ws1, name, ext, ws2, rest2, hdec, hprops⟩
    exact Or.inr ⟨ws1, name, ext, ws2, rest2, hdec, hprops⟩

/-- Completeness of the filename detection. -/
theorem detectFilename_complete (code : String)
    (h : ∃ cap, FilenameShape "//".data code cap ∨ FilenameShape "#".data code cap) :
    (detectFilename code).isSome = true := by
  unfold detectFilename
  rcases h with ⟨cap, hsh | hsh⟩
  · rcases hsh with ⟨ws1, name, ext, ws2, rest2, hdec, hws1, hname, hnamedot,
      hext, hextw, hws2, hcap⟩
    have := matchAfterMarker_complete "//" code.data ws1 name ext ws2 rest2
      hdec hws1 hname hnamedot hext hextw hws2
    split
    · rfl
    next hnone =>
      rw [hnone] at this
      exact absurd this (by decide)
  · split
    · rfl
    next =>
      rcases hsh with ⟨ws1, name, ext, ws2, rest2, hdec, hws1, hname, hnamedot,
        hext, hextw, hws2, hcap⟩
      exact matchAfterMarker_complete "#" code.data ws1 name ext ws2 rest2
        hdec hws1 hname hnamedot hext hextw hws2

/-- Any step leaves old sections alone, and adds only non-code sections or
a code section whose filename field is the regex result on its code body. -/
theorem step_code_new (s : MState) (e : Event) :
    ∀ x ∈ (step s e).sections, x ∈ s.sections ∨ x.isCode = false ∨
      ∃ i lang c raw, x = Section.code i lang c (detectFilename c) raw := by
  cases e <;>
    first
      | (intro x hx; exact Or.inl hx)
      | (simp only [step] <;> (try split) <;> (try split) <;>
          intro x hx <;>
          first
            | exact Or.inl hx
            | (rcases List.mem_append.mp hx with hx2 | hx2
               · exact Or.inl hx2
               · simp only [List.mem_singleton] at hx2
                 subst hx2
                 first
                   | exact Or.inr (Or.inl rfl)
                   | exact Or.inr (Or.inr ⟨_, _, _, _, rfl⟩)))

/-- Every code section in the output carries exactly the filename computed
by the detection regex on its trimmed code body. -/
theorem code_sections_filename (evs : List Event) :
    ∀ i lang c f raw, Section.code i lang c f raw ∈ (parseEvents evs).sections →
      f = detectFilename c := by
  have h := parseEvents_inv
    (fun s => ∀ i lang c f raw, Section.code i lang c f raw ∈ s.sections →
      f = detectFilename c)
    (by intro i lang c f raw hmem; simp [initState] at hmem)
    (fun s e hp => by
      intro i lang c f raw hmem
      rcases step_code_new s e _ hmem with hold | hfalse | ⟨i2, lang2, c2, raw2, heq⟩
      · exact hp i lang c f raw hold
      · simp [Section.isCode] at hfalse
      · rw [Section.code.injEq] at heq
        rw [heq.2.2.2.1, heq.2.2.1])
    evs
  exact h

/-- `includes` versus explicit decomposition. -/
theorem listContains_iff (needle hay : List Char) :
    listContains needle hay = true ↔ ∃ pre post, hay = pre ++ needle ++ post := by
  induction hay with
  | nil =>
    simp only [listContains, List.isEmpty_iff]
    constructor
    · rintro rfl
      exact ⟨[], [], rfl⟩
    · rintro ⟨pre, post, h⟩
      rcases List.append_eq_nil.mp (List.append_eq_nil.mp h.symm).1 with ⟨_, h2⟩
      exact h2
  | cons c rest ih =>
    simp only [listContains, Bool.or_eq_true, ih, isPrefixOf_iff_exists_append]
    constructor
    · rintro (⟨t, ht⟩ | ⟨pre, post, h⟩)
      · exact ⟨[], t, by simpa using ht⟩
      · exact ⟨c :: pre, post, by simp [h]⟩
    · rintro ⟨pre, post, h⟩
      cases pre with
      | nil => exact Or.inl ⟨post, by simpa using h⟩
      | cons d ds =>
        simp only [List.cons_append, List.cons.injEq] at h
        exact Or.inr ⟨ds, post, h.2⟩

/-- The boolean test `search` performs agrees with the declarative
case-insensitive-substring reading of the claim. -/
theorem strIncludes_lower_iff (raw q : String) :
    strIncludes (jsToLower raw) (jsToLower q) = true ↔ LowerSubstring q raw := by
  show listContains (q.data.map Char.toLower) (raw.data.map Char.toLower) = true ↔ _
  rw [listContains_iff]
  constructor
  · rintro ⟨pre, post, h⟩
    rcases List.map_eq_append_iff.mp h with ⟨l1, l2, hsplit, hpre, hpost⟩
    rcases List.map_eq_append_iff.mp hpre with ⟨l1a, l1b, hsplit2, hpre2, hmid⟩
    refine ⟨l1a, l1b, l2, ?_, hmid⟩
    rw [hsplit, hsplit2, List.append_assoc]
  · rintro ⟨pre, mid, post, hsplit, hmid⟩
    refine ⟨pre.map Char.toLower, post.map Char.toLower, ?_⟩
    rw [hsplit]
    simp [hmid]

/-- Claim C4 counterexample.  A table with duplicate headers ["A", "A"]
and one body row with cells "x", "y": the claim requires the mapping to
send header position 0 ("A") to the trimmed text of cell 0 ("x"), but a
mapping holds one value per key and the source's forEach writes the later
column last, so the emitted mapping is [("A", "y")] and looking up "A"
does not give "x". -/
theorem claim4_counterexample :
    (parseEvents
        [.tableOpen, .theadOpen, .trOpen, .cellText "A" true, .cellText "A" true,
          .trClose, .tbodyOpen, .trOpen, .cellText "x" true, .cellText "y" true,
          .trClose, .tableClose]).sections =
      [Section.table 0 ["A", "A"] [[("A", "y")]]
        "| A | A |\n| --- | --- |\n| x | y |"] ∧
    List.lookup "A" [("A", "y")] ≠ some "x" :=
  ⟨rfl, by decide⟩

/-- Claim C4 (amended).  At the close-tag of every table, each emitted row
mapping has exactly the headers as its key set (without duplicate keys),
and maps each header to the trimmed text of the row's cell at that
header's last occurrence position (for pairwise distinct headers this is
the header's only position, so the claim's per-position reading holds);
header positions beyond the row's last cell yield the empty string; and a
table with a header row but zero body rows yields rows equal to the empty
list rather than an error, as the concrete header-only stream shows. -/
theorem claim4_table_row_mappings (evs : List Event) (i : Nat)
    (hs : List String) (maps : List (List (String × String))) (raw : String)
    (m : List (String × String))
    (hmem : Section.table i hs maps raw ∈ (parseEvents evs).sections)
    (hm : m ∈ maps) :
    (∀ k, k ∈ m.map Prod.fst ↔ k ∈ hs) ∧
    (m.map Prod.fst).Nodup ∧
    (∃ cells, m = rowObj hs cells ∧
      (∀ j h, IsLastOcc hs j h →
        List.lookup h m = some (jsTrim ((cells.get? j).getD ""))) ∧
      (∀ j h, IsLastOcc hs j h → cells.length ≤ j →
        List.lookup h m = some "")) ∧
    (parseEvents [.tableOpen, .theadOpen, .trOpen, .cellText "Header1" true,
        .cellText "Header2" true, .trClose, .tableClose]).sections =
      [Section.table 0 ["Header1", "Header2"] []
        "| Header1 | Header2 |\n| --- | --- |\n"] := by
  rcases table_sections_shape evs i hs maps raw hmem with ⟨raws, hmaps, hraw⟩
  subst hmaps
  rcases List.mem_map.mp hm with ⟨cells, hcells, hmeq⟩
  subst hmeq
  refine ⟨?_, rowObj_nodup_keys hs cells, ⟨cells, rfl, ?_, ?_⟩, rfl⟩
  · intro k
    exact rowObj_mem_keys hs cells k
  · intro j h hlast
    exact rowObj_lookup_last hs cells j h hlast
  · intro j h hlast hlen
    rw [rowObj_lookup_last hs cells j h hlast, List.get?_eq_none.mpr hlen]
    rfl

/-- Witness for the amended claim C4, at the concrete duplicate-header
table: the single mapping key set equals the header set. -/
theorem claim4_table_row_mappings_witness :
    "A" ∈ ([("A", "y")] : List (String × String)).map Prod.fst ↔
      "A" ∈ ["A", "A"] :=
  (claim4_table_row_mappings
    [.tableOpen, .theadOpen, .trOpen, .cellText "A" true, .cellText "A" true,
      .trClose, .tbodyOpen, .trOpen, .cellText "x" true, .cellText "y" true,
      .trClose, .tableClose] 0 ["A", "A"] [[("A", "y")]]
    "| A | A |\n| --- | --- |\n| x | y |" [("A", "y")]
    (by decide) (by decide)).1 "A"

/-- Claim C10.  For every emitted table section whose headers contain the
same string more than once, each row mapping holds exactly one key for
that header, and its value is the trimmed cell text at the last position
where the header occurs. -/
theorem claim10_duplicate_header_last_wins (evs : List Event) (i : Nat)
    (hs : List String) (maps : List (List (String × String))) (raw : String)
    (m : List (String × String)) (h : String)
    (hmem : Section.table i hs maps raw ∈ (parseEvents evs).sections)
    (hm : m ∈ maps) (hdup : 1 < List.count h hs) :
    List.count h (m.map Prod.fst) = 1 ∧
    (∃ cells j, m = rowObj hs cells ∧ IsLastOcc hs j h ∧
      List.lookup h m = some (jsTrim ((cells.get? j).getD ""))) := by
  rcases table_sections_shape evs i hs maps raw hmem with ⟨raws, hmaps, hraw⟩
  subst hmaps
  rcases List.mem_map.mp hm with ⟨cells, hcells, hmeq⟩
  subst hmeq
  have hmemh : h ∈ hs := by
    by_contra hno
    rw [List.count_eq_zero_of_not_mem hno] at hdup
    omega
  have hmemkeys : h ∈ (rowObj hs cells).map Prod.fst :=
    (rowObj_mem_keys hs cells h).mpr hmemh
  refine ⟨List.count_eq_one_of_mem (rowObj_nodup_keys hs cells) hmemkeys, ?_⟩
  rcases exists_last_occ hs h hmemh with ⟨j, hlast⟩
  exact ⟨cells, j, rfl, hlast, rowObj_lookup_last hs cells j h hlast⟩

/-- Witness for claim C10, at the concrete duplicate-header table: the
mapping holds exactly one "A" key. -/
theorem claim10_duplicate_header_last_wins_witness :
    List.count "A" (([("A", "y")] : List (String × String)).map Prod.fst) = 1 :=
  (claim10_duplicate_header_last_wins
    [.tableOpen, .theadOpen, .trOpen, .cellText "A" true, .cellText "A" true,
      .trClose, .tbodyOpen, .trOpen, .cellText "x" true, .cellText "y" true,
      .trClose, .tableClose] 0 ["A", "A"] [[("A", "y")]]
    "| A | A |\n| --- | --- |\n| x | y |" [("A", "y")] "A"
    (by decide) (by decide) (by decide)).1

/-- Claim C5 counterexample.  A fenced block whose entire (trimmed) body is
the single line "// app.ts": its first line matches the
leading-comment-with-extension pattern, so the claim requires
filename == "app.ts"; the source regex additionally requires a newline
after the pattern, which a one-line body lacks after trimming, so the
emitted code section has no filename. -/
theorem claim5_counterexample :
    (parseEvents
        [.codeOpen (some "language-ts"), .codeText "// app.ts\n",
          .preClose]).sections =
      [Section.code 0 "ts" "// app.ts" none "```ts\n// app.ts\n```"] ∧
    claimFirstLineFilename "// app.ts" = some "app.ts" :=
  ⟨rfl, by decide⟩

/-- Claim C5 (amended).  Every emitted code section's filename field is the
result of the detection regex on its trimmed code body, and that regex
succeeds exactly when the body decomposes as comment marker ("//" or "#"),
optional whitespace (which may span line breaks), a nonempty single-line
name, a dot, a word-character extension, optional whitespace and a
newline; the filename returned is a name-dot-extension of such a
decomposition, with marker and surrounding whitespace stripped.  In
particular a multi-line block starting "// app.ts" yields "app.ts", a
block starting "# setup.sh" yields "setup.sh", a one-line block
"// app.ts" (no newline after the pattern) yields no filename, and a
block with no such leading comment yields no filename. -/
theorem claim5_filename_detection (code : String) :
    (∀ evs i lang c f raw,
      Section.code i lang c f raw ∈ (parseEvents evs).sections →
        f = detectFilename c) ∧
    (∀ cap, detectFilename code = some cap →
      FilenameShape "//".data code cap ∨ FilenameShape "#".data code cap) ∧
    ((∃ cap, FilenameShape "//".data code cap ∨ FilenameShape "#".data code cap) →
      (detectFilename code).isSome = true) ∧
    detectFilename "// app.ts\nconst x = 1;" = some "app.ts" ∧
    detectFilename "# setup.sh\necho hello" = some "setup.sh" ∧
    detectFilename "// app.ts" = none ∧
    detectFilename "console.log(hi);" = none := by
  refine ⟨?_, ?_, ?_, by decide, by decide, by decide, by decide⟩
  · intro evs i lang c f raw hmem
    exact code_sections_filename evs i lang c f raw hmem
  · intro cap h
    exact detectFilename_sound code cap h
  · intro h
    exact detectFilename_complete code h

/-- Witness for the amended claim C5: the detection on a concrete
two-line body yields a decomposition witnessing the pattern. -/
theorem claim5_filename_detection_witness :
    FilenameShape "//".data "// app.ts\nconst x = 1;" "app.ts" ∨
      FilenameShape "#".data "// app.ts\nconst x = 1;" "app.ts" :=
  (claim5_filename_detection "// app.ts\nconst x = 1;").2.1 "app.ts" (by decide)

/-- Claim C6.  `slugify` lowercases its input, replaces every maximal run
of characters outside `[a-z0-9]` by a single hyphen and strips an edge
hyphen: the slug of "Hello World!" is "hello-world", non-ASCII letters are
dropped into the hyphen runs (the repo's own test: "Meu Título Especial"
becomes "meu-t-tulo-especial", and "café" degrades to "caf") and, for
every input, the output consists only of lowercase alphanumerics and
hyphens, never starts or ends with a hyphen, and never contains two
adjacent hyphens (each run collapsed to a single one); being a total
function it never throws. -/
theorem claim6_slugify :
    slugify "Hello World!" = "hello-world" ∧
    slugify "Meu Título Especial" = "meu-t-tulo-especial" ∧
    slugify "café" = "caf" ∧
    ∀ s : String,
      (∀ c ∈ (slugify s).data, isLowerAlnum c = true ∨ c = '-') ∧
      (slugify s).data.head? ≠ some '-' ∧
      (slugify s).data.getLast? ≠ some '-' ∧
      List.Chain' (fun x y => ¬(x = '-' ∧ y = '-')) (slugify s).data := by
  refine ⟨by decide, by decide, by decide, ?_⟩
  intro s
  have hdata : (slugify s).data =
      dropTrailingHyphen (dropLeadingHyphen (collapseRuns (jsToLower s).data)) := rfl
  have hchainL : List.Chain' (fun x y => ¬(x = '-' ∧ y = '-'))
      (collapseRuns (jsToLower s).data) := collapseAux_chain _ false
  have hchainA := dropLeadingHyphen_chain _ hchainL
  refine ⟨?_, ?_, ?_, ?_⟩
  · intro c hc
    rw [hdata] at hc
    exact collapseAux_mem _ false c
      ((stripEdgeHyphens_sublist (collapseRuns (jsToLower s).data)).subset hc)
  · rw [hdata]
    exact dropTrailingHyphen_head _ (dropLeadingHyphen_head _ hchainL)
  · rw [hdata]
    exact dropTrailingHyphen_getLast _ hchainA
  · rw [hdata]
    exact dropTrailingHyphen_chain _ hchainA

/-- Witness for claim C6, at a concrete slug character: the first letter
of the "Hello World!" slug is a lowercase alphanumeric or a hyphen. -/
theorem claim6_slugify_witness :
    isLowerAlnum 'h' = true ∨ 'h' = '-' :=
  (claim6_slugify.2.2.2 "Hello World!").1 'h' (by decide)

/-- Claim C7.  `byLang` returns exactly the code sections of the document
whose language equals the query or starts with it (the code's redundant
equality test collapses into the prefix test), preserving their order
(`byLang` output is a subsequence of `codeBlocks`, itself a subsequence of
`sections`); on a concrete document containing ts, tsx and css blocks the
query "ts" returns both the ts and the tsx block while "css" returns only
the css block. -/
theorem claim7_byLang (evs : List Event) (source lang : String) :
    (∀ sec, sec ∈ (parseMarkdown evs source).byLang lang ↔
      (sec ∈ (parseMarkdown evs source).sections ∧ sec.isCode = true ∧
        (sec.langOf = lang ∨ ∃ t, sec.langOf.data = lang.data ++ t))) ∧
    ((parseMarkdown evs source).byLang lang).Sublist
      (parseMarkdown evs source).codeBlocks ∧
    ((parseMarkdown evs source).codeBlocks).Sublist
      (parseMarkdown evs source).sections ∧
    (parseMarkdown
        [.codeOpen (some "language-ts"), .codeText "a", .preClose,
          .codeOpen (some "language-tsx"), .codeText "b", .preClose,
          .codeOpen (some "language-css"), .codeText "c", .preClose] "d").byLang
        "ts" =
      [Section.code 0 "ts" "a" none "```ts\na\n```",
        Section.code 1 "tsx" "b" none "```tsx\nb\n```"] ∧
    (parseMarkdown
        [.codeOpen (some "language-ts"), .codeText "a", .preClose,
          .codeOpen (some "language-tsx"), .codeText "b", .preClose,
          .codeOpen (some "language-css"), .codeText "c", .preClose] "d").byLang
        "css" =
      [Section.code 2 "css" "c" none "```css\nc\n```"] := by
  refine ⟨?_, ?_, ?_, by decide, by decide⟩
  · intro sec
    have hcb : (parseMarkdown evs source).codeBlocks =
        (parseMarkdown evs source).sections.filter Section.isCode := rfl
    show sec ∈ List.filter _ (parseMarkdown evs source).codeBlocks ↔ _
    rw [hcb]
    simp only [List.mem_filter, Bool.or_eq_true, beq_iff_eq,
      isPrefixOf_iff_exists_append, and_assoc]
  · exact List.filter_sublist _
  · exact List.filter_sublist _

/-- Claim C8.  `search` returns exactly the sections whose raw text
contains the query as a case-insensitive substring, in document order
(a subsequence of `sections`), and returns the empty list when no section
matches; concretely, searching "COMPONENT" finds a heading whose raw text
contains "Component". -/
theorem claim8_search (evs : List Event) (source q : String) :
    (∀ sec, sec ∈ (parseMarkdown evs source).search q ↔
      (sec ∈ (parseMarkdown evs source).sections ∧ LowerSubstring q sec.raw)) ∧
    ((parseMarkdown evs source).search q).Sublist
      (parseMarkdown evs source).sections ∧
    ((∀ sec ∈ (parseMarkdown evs source).sections, ¬ LowerSubstring q sec.raw) →
      (parseMarkdown evs source).search q = []) ∧
    (parseMarkdown [.hOpen 1, .hText "My Component", .hClose] "d").search
        "COMPONENT" =
      [Section.heading 0 1 "My Component" "my-component" "# My Component"] := by
  refine ⟨?_, List.filter_sublist _, ?_, by decide⟩
  · intro sec
    show sec ∈ List.filter _ _ ↔ _
    simp only [List.mem_filter, strIncludes_lower_iff]
  · intro h
    refine List.filter_eq_nil.mpr ?_
    intro sec hsec hb
    exact h sec hsec ((strIncludes_lower_iff sec.raw q).mp hb)

/-- Witness for claim C8: on the concrete one-heading document a query
matching nothing returns the empty list. -/
theorem claim8_search_witness :
    (parseMarkdown [.hOpen 1, .hText "My Component", .hClose] "d").search
      "xyzzy" = [] := by
  refine (claim8_search [.hOpen 1, .hText "My Component", .hClose] "d"
    "xyzzy").2.2.1 ?_
  intro sec hsec hLS
  have hb := (strIncludes_lower_iff sec.raw "xyzzy").mpr hLS
  have hsections : (parseMarkdown [.hOpen 1, .hText "My Component", .hClose]
      "d").sections =
      [Section.heading 0 1 "My Component" "my-component" "# My Component"] := rfl
  rw [hsections, List.mem_singleton] at hsec
  subst hsec
  exact absurd hb (by decide)

/-- Witness for claim C9 at concrete collaborators: a file reader that
reports every path missing, and a fetch returning status 404. -/
theorem claim9_io_failures_witness :
    parseFile (fun _ => none) (fun _ => []) "docs.md" =
      .error "File not found: docs.md" ∧
    fetchDocs (fun _ => .ok ⟨false, 404, ""⟩) (fun _ => []) "http://h/d.md" =
      .error "Failed to fetch http://h/d.md: 404" := by
  constructor
  · exact ((claim9_io_failures (fun _ => none)
      (fun _ => .ok ⟨false, 404, ""⟩) (fun _ => []) "docs.md" "http://h/d.md").1 rfl)
  · exact ((claim9_io_failures (fun _ => none)
      (fun _ => .ok ⟨false, 404, ""⟩) (fun _ => []) "docs.md" "http://h/d.md").2.1
      ⟨false, 404, ""⟩ rfl rfl)

end Mdx
